import Mathlib

/-!
Verification of the DocFlow repository's run-splitting text replacement
engine, font normalization pass, filename derivation, and batch driver.

Strings are modelled as `List Char`.  Python's `str.find(old, start)` is
modelled by `findSub` on the suffix, `old in s` by `containsSub`, and the
`while`-loop of `deep_replace_text_in_paragraph` that builds the `parts`
list by the fuel-indexed `pyPartsF` (the fuel `s.length` is provably
sufficient for non-empty `old`).  Paragraphs are lists of style-tagged
runs, mirroring the python-docx data model described in the design notes.
-/

namespace DocFlow

/-- Text is a list of characters (model of a Python `str`). -/
abbrev Str := List Char

/-- The style record of a run: the six attributes copied by
`deep_replace_text_in_paragraph` when splitting a run
(bold / italic / underline / font name / font size / named style). -/
structure RunStyle where
  bold : Option Bool
  italic : Option Bool
  underline : Option Bool
  fontName : Option Str
  fontSize : Option Nat
  namedStyle : Str
deriving DecidableEq, Repr

/-- A run: a span of text with one style record. -/
structure Run where
  text : Str
  style : RunStyle
deriving DecidableEq, Repr

/-- A paragraph is an ordered sequence of runs. -/
abbrev Paragraph := List Run

/-- Model of python-docx `paragraph.text`: the concatenation of the runs'
texts, in order. -/
def paraText (p : Paragraph) : Str := (p.map Run.text).flatten

/-- Whether `old` occurs in `s` at position `i`
(`s[i : i + old.length] == old`). -/
def occB (old s : Str) (i : Nat) : Bool :=
  decide ((s.drop i).take old.length = old)

/-- Model of Python `s.find(old)`: the least position at which `old`
occurs in `s`, or `none` (Python `-1`) when there is no occurrence. -/
def findSub (old : Str) : Str → Option Nat
  | [] => if occB old [] 0 then some 0 else none
  | c :: rest =>
    if occB old (c :: rest) 0 then some 0
    else (findSub old rest).map (· + 1)

/-- Model of Python `old in s`. -/
def containsSub (old s : Str) : Bool := (findSub old s).isSome

/-- Fuel-indexed model of the `while True` loop of
`deep_replace_text_in_paragraph` that builds the `parts` list for one
run.  The loop state `start` is replaced by the remaining suffix
`s = text[start:]`; each iteration finds the next occurrence, emits the
literal segment before it and the replacement segment, and resumes
strictly after the end of the match. -/
def pyPartsF (old new : Str) : Nat → Str → List Str
  | 0, s => [s]
  | fuel + 1, s =>
    match findSub old s with
    | none => [s]
    | some i => s.take i :: new :: pyPartsF old new fuel (s.drop (i + old.length))

/-- The `parts` list built for a run with text `s`: fuel `s.length`
suffices because for non-empty `old` every iteration strictly shortens
the remaining suffix. -/
def pyParts (old new s : Str) : List Str := pyPartsF old new s.length s

/-- Model of Python `s.replace(old, new)` (for non-empty `old`): the
concatenation of the `parts` list. -/
def pyReplace (old new s : Str) : Str := (pyParts old new s).flatten

/-- The style a freshly created run receives from `paragraph.add_run`:
no direct bold/italic/underline/font formatting, default named style. -/
def defaultRunStyle : RunStyle :=
  { bold := none, italic := none, underline := none,
    fontName := none, fontSize := none,
    namedStyle := "Default Paragraph Font".toList }

/-- The per-run body of the loop of `deep_replace_text_in_paragraph`
(source lines 42-70): if `old` occurs in the run's text, the run's text
becomes the first segment of `parts` and one new run is inserted after
it for every further segment (replacement segments included), each
copying bold/italic/underline/font name/font size/named style from the
original run; otherwise the run is left untouched. -/
def splitRun (old new : Str) (r : Run) : List Run :=
  if containsSub old r.text then
    let parts := pyParts old new r.text
    { r with text := parts.headD [] } ::
      parts.tail.map (fun seg => { text := seg, style := r.style })
  else [r]

/-- The `replaced_in_run` flag of `deep_replace_text_in_paragraph`:
true iff some single run's text contains `old`. -/
def replaced_in_run (p : Paragraph) (old : Str) : Bool :=
  p.any fun r => containsSub old r.text

/-- Model of `deep_replace_text_in_paragraph(paragraph, old_text, new_text)`
(source lines 28-78).  The first component is the paragraph after the
call; the second component is the Python return value — the function has
no `return` statement, so it always returns `None` (`none`).  The loop
over `paragraph.runs` iterates over a snapshot of the original run list,
splitting each run that contains `old`; if no run contained `old` but the
paragraph's concatenated text does, all runs are deleted and one new run
holding the fully substituted text is appended. -/
def deep_replace_text_in_paragraph (p : Paragraph) (old new : Str) :
    Paragraph × Option Bool :=
  if !(replaced_in_run p old)
      && containsSub old (paraText (p.flatMap (splitRun old new))) then
    ([{ text := pyReplace old new (paraText (p.flatMap (splitRun old new))),
        style := defaultRunStyle }], none)
  else
    (p.flatMap (splitRun old new), none)

/-- Model of the per-paragraph rule loop of `process_word_file`
(source lines 95-98): each rule is applied in list order, guarded by
`old_text in paragraph.text`. -/
def apply_rules_to_paragraph (p : Paragraph) (rules : List (Str × Str)) : Paragraph :=
  rules.foldl
    (fun q rule =>
      if containsSub rule.1 (paraText q) then
        (deep_replace_text_in_paragraph q rule.1 rule.2).1
      else q)
    p

/-- Model of the filename derivation of `process_word_file`
(source lines 100-102): every rule's substitution is applied to the
filename, in list order. -/
def new_filename (name : Str) (rules : List (Str × Str)) : Str :=
  rules.foldl (fun acc rule => pyReplace rule.1 rule.2 acc) name

/-- Model of `process_file_name` in DocFlow.py (lines 123-128): like
`new_filename` but each substitution is guarded by `old in file_name`. -/
def process_file_name (name : Str) (rules : List (Str × Str)) : Str :=
  rules.foldl
    (fun acc rule =>
      if containsSub rule.1 acc then pyReplace rule.1 rule.2 acc else acc)
    name

/-- A document for the font-normalization pass: body paragraphs, tables
(rows of cells of paragraphs) and one footer paragraph list per section. -/
structure Document where
  body : List Paragraph
  tables : List (List (List (List Paragraph)))
  footers : List (List Paragraph)
deriving DecidableEq, Repr

/-- Set a run's font name and size, leaving every other attribute alone. -/
def setRunFont (name : Str) (size : Nat) (r : Run) : Run :=
  { r with style := { r.style with fontName := some name, fontSize := some size } }

/-- The font family hard-coded by `change_font_in_docx`. -/
def calibri : Str := "Calibri".toList

/-- Model of the mutation performed by `change_font_in_docx`
(source lines 37-60): every run of every body paragraph and of every
paragraph in every table cell gets Calibri 12pt; every run of every
section-footer paragraph gets Calibri 8pt. -/
def change_font_in_docx (d : Document) : Document :=
  { body := d.body.map fun p => p.map (setRunFont calibri 12),
    tables := d.tables.map fun table =>
      table.map fun row => row.map fun cell => cell.map fun p =>
        p.map (setRunFont calibri 12),
    footers := d.footers.map fun f => f.map fun p => p.map (setRunFont calibri 8) }

/-- The batch report: the count printed by `process_directory`
("Total files processed: X/Y") together with the per-file failures
recorded (logged) along the way. -/
structure BatchReport (F E : Type) where
  files_processed : Nat
  total_files : Nat
  failures : List (F × E)
deriving DecidableEq

/-- Model of `process_word_file` (source lines 93-107).  The whole
load/mutate/save pipeline for a file is abstracted by its outcome
`Except E Unit`; the `try/except` catches any error, logs it, and falls
through, so the function itself never propagates an exception: it
returns normally, carrying the logged error (if any). -/
def process_word_file_model {E : Type} (outcome : Except E Unit) :
    Except E (Option E) :=
  match outcome with
  | Except.ok _ => Except.ok none
  | Except.error e => Except.ok (some e)

/-- One iteration of the per-future loop of `process_directory`
(source lines 150-158): a worker result that raised is caught, its error
recorded, and `files_processed` is not incremented; a worker result that
returned normally increments `files_processed`, recording the error the
worker logged internally, if any. -/
def directory_step {F E : Type} (acc : Nat × List (F × E))
    (f : F × Except E Unit) : Nat × List (F × E) :=
  match process_word_file_model f.2 with
  | Except.ok none => (acc.1 + 1, acc.2)
  | Except.ok (some e) => (acc.1 + 1, acc.2 ++ [(f.1, e)])
  | Except.error e => (acc.1, acc.2 ++ [(f.1, e)])

/-- The failure record a file contributes to the batch report: its
logged error, when its processing outcome is an error. -/
def failure_record {F E : Type} (f : F × Except E Unit) : Option (F × E) :=
  match f.2 with
  | Except.error e => some (f.1, e)
  | Except.ok _ => none

/-- Model of `process_directory` (source lines 126-159): every file's
worker result is folded through `directory_step`; the loop always
continues with the remaining files and finally reports processed versus
total ("Total files processed: X/Y"). -/
def process_directory_model {F E : Type} (files : List (F × Except E Unit)) :
    BatchReport F E :=
  { files_processed := (files.foldl directory_step (0, [])).1,
    total_files := files.length,
    failures := (files.foldl directory_step (0, [])).2 }

/-- A concrete body run used in the font-normalization scenario:
a 12pt Times New Roman run. -/
def timesBodyRun : Run :=
  { text := "hello".toList,
    style := { bold := none, italic := none, underline := none,
               fontName := some "Times New Roman".toList,
               fontSize := some 12,
               namedStyle := "Normal".toList } }

/-- A concrete footer run used in the font-normalization scenario:
a 10pt Times New Roman run. -/
def timesFooterRun : Run :=
  { text := "page".toList,
    style := { bold := none, italic := none, underline := none,
               fontName := some "Times New Roman".toList,
               fontSize := some 10,
               namedStyle := "Footer".toList } }

/-- The document of the spec's font-normalization scenario: one body
paragraph with a 12pt Times run, no tables, one section whose footer
has one paragraph with a 10pt Times run. -/
def fontScenarioDoc : Document :=
  { body := [[timesBodyRun]],
    tables := [],
    footers := [[[timesFooterRun]]] }

/-- Whether position `i` of the concatenation of the texts `ts` falls
wholly within a single segment: used to state the amended within-one-run
hypothesis of the replacement correctness claim. -/
def withinOneB (old : Str) : List Str → Nat → Bool
  | [], _ => false
  | t :: rest, i =>
    decide (i + old.length ≤ t.length) ||
      (decide (t.length ≤ i) && withinOneB old rest (i - t.length))

/-! ### Basic facts about occurrences and `findSub` -/

lemma occB_iff {old s : Str} {i : Nat} :
    occB old s i = true ↔ (s.drop i).take old.length = old := by
  simp [occB]

lemma occB_cons_succ {old : Str} {c : Char} {s : Str} {i : Nat} :
    occB old (c :: s) (i + 1) = occB old s i := by
  simp [occB]

lemma occB_nil {old : Str} {i : Nat} (hold : old ≠ []) :
    occB old [] i = false := by
  simp only [occB, List.drop_nil, List.take_nil, decide_eq_false_iff_not]
  exact fun h => hold h.symm

lemma occB_bound {old s : Str} {i : Nat} (hold : old ≠ [])
    (h : occB old s i = true) : i + old.length ≤ s.length := by
  rw [occB_iff] at h
  have hl := congrArg List.length h
  have hpos : 0 < old.length := List.length_pos.mpr hold
  simp only [List.length_take, List.length_drop] at hl
  omega

lemma occB_append_left {old t u : Str} {i : Nat} (h : occB old t i = true) :
    occB old (t ++ u) i = true := by
  rw [occB_iff] at h ⊢
  have hlen : old.length ≤ t.length - i := by
    have hl := congrArg List.length h
    simp only [List.length_take, List.length_drop] at hl
    omega
  rw [List.drop_append_eq_append_drop, List.take_append_eq_append_take, h]
  have h1 : old.length - (t.drop i).length = 0 := by
    simp only [List.length_drop]; omega
  rw [h1]
  simp

lemma occB_append_right {old t u : Str} {j : Nat} (h : occB old u j = true) :
    occB old (t ++ u) (t.length + j) = true := by
  rw [occB_iff] at h ⊢
  rw [List.drop_append_eq_append_drop]
  have h1 : List.drop (t.length + j) t = [] :=
    List.drop_eq_nil_iff.mpr (by omega)
  have h2 : t.length + j - t.length = j := by omega
  rw [h1, h2, List.nil_append]
  exact h

lemma occB_split_left {old t u : Str} {i : Nat}
    (h : occB old (t ++ u) i = true) (hle : i + old.length ≤ t.length) :
    occB old t i = true := by
  rw [occB_iff] at h ⊢
  rw [List.drop_append_eq_append_drop, List.take_append_eq_append_take] at h
  have h1 : old.length - (List.drop i t).length = 0 := by
    simp only [List.length_drop]; omega
  rw [h1] at h
  simpa using h

lemma occB_split_right {old t u : Str} {i : Nat}
    (h : occB old (t ++ u) i = true) (hge : t.length ≤ i) :
    occB old u (i - t.length) = true := by
  rw [occB_iff] at h ⊢
  rw [List.drop_append_eq_append_drop] at h
  have h1 : List.drop i t = [] := List.drop_eq_nil_iff.mpr hge
  rw [h1, List.nil_append] at h
  exact h

lemma occB_drop {old s : Str} {m j : Nat} :
    occB old (s.drop m) j = occB old s (m + j) := by
  simp [occB, List.drop_drop]

lemma eq_false_of_ne_true {b : Bool} (h : ¬ b = true) : b = false := by
  cases b
  · rfl
  · exact absurd rfl h

lemma findSub_nil {old : Str} (hold : old ≠ []) : findSub old [] = none := by
  simp [findSub, occB_nil hold]

lemma occB_nil_shift {old : Str} (i : Nat) : occB old [] i = occB old [] 0 := by
  simp [occB]

lemma findSub_none_iff {old : Str} : ∀ {s : Str},
    findSub old s = none ↔ ∀ i, occB old s i = false := by
  intro s
  induction s with
  | nil =>
    simp only [findSub]
    constructor
    · intro h i
      by_cases h0 : occB old [] 0 = true
      · rw [if_pos h0] at h; cases h
      · rw [occB_nil_shift i]
        exact eq_false_of_ne_true h0
    · intro h
      rw [if_neg (by rw [h 0]; exact Bool.false_ne_true)]
  | cons c rest ih =>
    by_cases h0 : occB old (c :: rest) 0 = true
    · simp only [findSub, if_pos h0]
      constructor
      · intro h; cases h
      · intro h
        rw [h 0] at h0; cases h0
    · simp only [findSub, if_neg h0]
      have hmap : (findSub old rest).map (· + 1) = none ↔ findSub old rest = none := by
        cases findSub old rest <;> simp
      rw [hmap, ih]
      constructor
      · intro h i
        cases i with
        | zero => exact eq_false_of_ne_true h0
        | succ j => rw [occB_cons_succ]; exact h j
      · intro h j
        have := h (j + 1)
        rwa [occB_cons_succ] at this

lemma findSub_some {old : Str} : ∀ {s : Str} {i : Nat},
    findSub old s = some i →
    occB old s i = true ∧ ∀ j, j < i → occB old s j = false := by
  intro s
  induction s with
  | nil =>
    intro i h
    simp only [findSub] at h
    by_cases h0 : occB old [] 0 = true
    · rw [if_pos h0] at h
      cases h
      exact ⟨h0, fun j hj => absurd hj (Nat.not_lt_zero j)⟩
    · rw [if_neg h0] at h; cases h
  | cons c rest ih =>
    intro i h
    by_cases h0 : occB old (c :: rest) 0 = true
    · simp only [findSub, if_pos h0] at h
      cases h
      exact ⟨h0, fun j hj => absurd hj (Nat.not_lt_zero j)⟩
    · simp only [findSub, if_neg h0] at h
      cases hf : findSub old rest with
      | none => rw [hf] at h; cases h
      | some k =>
        rw [hf] at h
        have h2 : k + 1 = i := by simpa using h
        subst h2
        obtain ⟨hocc, hmin⟩ := ih hf
        refine ⟨by rwa [occB_cons_succ], ?_⟩
        intro j hj
        cases j with
        | zero => exact eq_false_of_ne_true h0
        | succ m =>
          rw [occB_cons_succ]
          exact hmin m (by omega)

lemma findSub_some_of {old : Str} : ∀ {s : Str} {i : Nat},
    occB old s i = true → (∀ j, j < i → occB old s j = false) →
    findSub old s = some i := by
  intro s
  induction s with
  | nil =>
    intro i h hmin
    have hi0 : occB old [] 0 = true := by
      rw [← occB_nil_shift i]; exact h
    have hz : i = 0 := by
      by_contra hne
      have hcontra := hmin 0 (Nat.pos_of_ne_zero hne)
      rw [hi0] at hcontra; cases hcontra
    subst hz
    simp only [findSub, if_pos hi0]
  | cons c rest ih =>
    intro i h hmin
    by_cases h0 : occB old (c :: rest) 0 = true
    · have hz : i = 0 := by
        by_contra hne
        have hcontra := hmin 0 (Nat.pos_of_ne_zero hne)
        rw [h0] at hcontra; cases hcontra
      subst hz
      simp [findSub, h0]
    · have hi : i ≠ 0 := by
        intro he; subst he; exact h0 h
      obtain ⟨m, rfl⟩ : ∃ m, i = m + 1 := ⟨i - 1, by omega⟩
      have hm : occB old rest m = true := by rwa [occB_cons_succ] at h
      have hmin2 : ∀ j, j < m → occB old rest j = false := by
        intro j hj
        have := hmin (j + 1) (by omega)
        rwa [occB_cons_succ] at this
      simp [findSub, h0, ih hm hmin2]

lemma findSub_bound {old s : Str} {i : Nat} (hold : old ≠ [])
    (h : findSub old s = some i) : i + old.length ≤ s.length :=
  occB_bound hold (findSub_some h).1

lemma containsSub_iff {old s : Str} :
    containsSub old s = true ↔ ∃ i, occB old s i = true := by
  unfold containsSub
  cases hf : findSub old s with
  | none =>
    constructor
    · intro h; cases h
    · rintro ⟨i, hi⟩
      rw [findSub_none_iff.mp hf i] at hi
      cases hi
  | some k =>
    constructor
    · intro _; exact ⟨k, (findSub_some hf).1⟩
    · intro _; rfl

lemma containsSub_false_iff {old s : Str} :
    containsSub old s = false ↔ findSub old s = none := by
  unfold containsSub
  cases findSub old s <;> simp

/-! ### The scanning loop: fuel sufficiency and unfolding -/

lemma pyPartsF_congr {old new : Str} (hold : old ≠ []) :
    ∀ fuel₁ fuel₂ s, s.length ≤ fuel₁ → s.length ≤ fuel₂ →
    pyPartsF old new fuel₁ s = pyPartsF old new fuel₂ s := by
  intro fuel₁
  induction fuel₁ with
  | zero =>
    intro fuel₂ s h1 _
    have hs : s = [] := List.length_eq_zero.mp (by omega)
    subst hs
    cases fuel₂ with
    | zero => rfl
    | succ m => simp [pyPartsF, findSub_nil hold]
  | succ n ih =>
    intro fuel₂ s h1 h2
    cases fuel₂ with
    | zero =>
      have hs : s = [] := List.length_eq_zero.mp (by omega)
      subst hs
      simp [pyPartsF, findSub_nil hold]
    | succ m =>
      cases hf : findSub old s with
      | none => simp only [pyPartsF, hf]
      | some i =>
        have hb := findSub_bound hold hf
        have hpos : 0 < old.length := List.length_pos.mpr hold
        have hl : (s.drop (i + old.length)).length = s.length - (i + old.length) :=
          List.length_drop ..
        simp only [pyPartsF, hf]
        show s.take i :: new :: pyPartsF old new n (s.drop (i + old.length))
          = s.take i :: new :: pyPartsF old new m (s.drop (i + old.length))
        rw [ih m (s.drop (i + old.length)) (by omega) (by omega)]

lemma pyParts_of_none {old new s : Str} (h : findSub old s = none) :
    pyParts old new s = [s] := by
  cases s with
  | nil => rfl
  | cons c rest => simp [pyParts, pyPartsF, h]

lemma pyParts_of_some {old new s : Str} {i : Nat} (hold : old ≠ [])
    (h : findSub old s = some i) :
    pyParts old new s
      = s.take i :: new :: pyParts old new (s.drop (i + old.length)) := by
  have hb := findSub_bound hold h
  have hpos : 0 < old.length := List.length_pos.mpr hold
  cases s with
  | nil =>
    rw [findSub_nil hold] at h
    cases h
  | cons c rest =>
    show pyPartsF old new (rest.length + 1) (c :: rest) = _
    simp only [pyPartsF, h]
    show (c :: rest).take i :: new ::
        pyPartsF old new rest.length ((c :: rest).drop (i + old.length)) = _
    have hl : ((c :: rest).drop (i + old.length)).length
        = rest.length + 1 - (i + old.length) := List.length_drop ..
    rw [pyPartsF_congr hold rest.length ((c :: rest).drop (i + old.length)).length
      ((c :: rest).drop (i + old.length)) (by simp at hb; omega) (by omega)]
    rfl

lemma pyReplace_of_none {old new s : Str} (h : findSub old s = none) :
    pyReplace old new s = s := by
  simp [pyReplace, pyParts_of_none h]

lemma pyReplace_of_some {old new s : Str} {i : Nat} (hold : old ≠ [])
    (h : findSub old s = some i) :
    pyReplace old new s
      = s.take i ++ new ++ pyReplace old new (s.drop (i + old.length)) := by
  simp [pyReplace, pyParts_of_some hold h, List.append_assoc]

lemma pyReplace_nil {old new : Str} (hold : old ≠ []) :
    pyReplace old new [] = [] :=
  pyReplace_of_none (findSub_nil hold)

lemma pyParts_ne_nil {old new s : Str} : pyParts old new s ≠ [] := by
  cases s with
  | nil => simp [pyParts, pyPartsF]
  | cons c rest =>
    show pyPartsF old new (rest.length + 1) (c :: rest) ≠ []
    simp only [pyPartsF]
    cases findSub old (c :: rest) <;> simp

/-! ### Splitting a replacement across an occurrence-free boundary -/

lemma pyReplace_append (old new : Str) (hold : old ≠ []) :
    ∀ (n : Nat) (t u : Str), t.length ≤ n →
    (∀ i, occB old (t ++ u) i = true →
      i + old.length ≤ t.length ∨ t.length ≤ i) →
    pyReplace old new (t ++ u) = pyReplace old new t ++ pyReplace old new u := by
  intro n
  induction n with
  | zero =>
    intro t u ht _
    have hs : t = [] := List.length_eq_zero.mp (by omega)
    subst hs
    rw [pyReplace_nil hold]
    rfl
  | succ n ih =>
    intro t u ht hsep
    have hpos : 0 < old.length := List.length_pos.mpr hold
    cases hf : findSub old (t ++ u) with
    | none =>
      have hall := findSub_none_iff.mp hf
      have hnt : findSub old t = none := by
        rw [findSub_none_iff]
        intro j
        by_cases hq : occB old t j = true
        · have hc := @occB_append_left old t u j hq
          rw [hall j] at hc; cases hc
        · exact eq_false_of_ne_true hq
      have hnu : findSub old u = none := by
        rw [findSub_none_iff]
        intro j
        by_cases hq : occB old u j = true
        · have hc := @occB_append_right old t u j hq
          rw [hall (t.length + j)] at hc; cases hc
        · exact eq_false_of_ne_true hq
      rw [pyReplace_of_none hf, pyReplace_of_none hnt, pyReplace_of_none hnu]
    | some i =>
      obtain ⟨hocc, hmin⟩ := findSub_some hf
      rcases hsep i hocc with hleft | hright
      · have hft : findSub old t = some i := by
          apply findSub_some_of (occB_split_left hocc hleft)
          intro j hj
          by_cases hq : occB old t j = true
          · have hc := @occB_append_left old t u j hq
            rw [hmin j hj] at hc; cases hc
          · exact eq_false_of_ne_true hq
        have hdrop : (t ++ u).drop (i + old.length)
            = t.drop (i + old.length) ++ u := by
          rw [List.drop_append_eq_append_drop]
          have hz : i + old.length - t.length = 0 := by omega
          rw [hz, List.drop_zero]
        have htake : (t ++ u).take i = t.take i :=
          List.take_append_of_le_length (by omega)
        have hsep2 : ∀ j, occB old (t.drop (i + old.length) ++ u) j = true →
            j + old.length ≤ (t.drop (i + old.length)).length ∨
              (t.drop (i + old.length)).length ≤ j := by
          intro j hj
          rw [← hdrop, occB_drop] at hj
          have hld : (t.drop (i + old.length)).length
              = t.length - (i + old.length) := List.length_drop ..
          rcases hsep _ hj with h1 | h1
          · left; omega
          · right; omega
        have hrec := ih (t.drop (i + old.length)) u
          (by have := List.length_drop (i + old.length) t; omega) hsep2
        rw [pyReplace_of_some hold hf, pyReplace_of_some hold hft, hdrop, htake,
          hrec]
        simp [List.append_assoc]
      · have hnt : findSub old t = none := by
          rw [findSub_none_iff]
          intro j
          by_cases hq : occB old t j = true
          · exfalso
            have hb := occB_bound hold hq
            have hc := @occB_append_left old t u j hq
            have hij : i ≤ j := by
              by_contra hlt
              push_neg at hlt
              rw [hmin j hlt] at hc; cases hc
            omega
          · exact eq_false_of_ne_true hq
        have hfu : findSub old u = some (i - t.length) := by
          apply findSub_some_of (occB_split_right hocc hright)
          intro j hj
          by_cases hq : occB old u j = true
          · exfalso
            have hc := @occB_append_right old t u j hq
            have : ¬ (t.length + j < i) := by
              intro hlt
              rw [hmin _ hlt] at hc; cases hc
            omega
          · exact eq_false_of_ne_true hq
        have htake : (t ++ u).take i = t ++ u.take (i - t.length) := by
          rw [List.take_append_eq_append_take, List.take_of_length_le hright]
        have hdrop : (t ++ u).drop (i + old.length)
            = u.drop (i - t.length + old.length) := by
          rw [List.drop_append_eq_append_drop]
          have h1 : t.drop (i + old.length) = [] :=
            List.drop_eq_nil_iff.mpr (by omega)
          have h2 : i + old.length - t.length = i - t.length + old.length := by
            omega
          rw [h1, h2, List.nil_append]
        rw [pyReplace_of_some hold hf, pyReplace_of_some hold hfu,
          pyReplace_of_none hnt, htake, hdrop]
        simp [List.append_assoc]

/-! ### Per-run replacement concatenates to the whole-text replacement
when every occurrence lies within a single run -/

lemma flatten_map_pyReplace (old new : Str) (hold : old ≠ []) :
    ∀ ts : List Str,
    (∀ i, occB old ts.flatten i = true → withinOneB old ts i = true) →
    (ts.map (pyReplace old new)).flatten = pyReplace old new ts.flatten := by
  intro ts
  induction ts with
  | nil =>
    intro _
    simp [pyReplace_nil hold]
  | cons t rest ih =>
    intro hw
    have hpos : 0 < old.length := List.length_pos.mpr hold
    have hsep : ∀ i, occB old (t ++ rest.flatten) i = true →
        i + old.length ≤ t.length ∨ t.length ≤ i := by
      intro i hi
      have hwi := hw i (by simpa using hi)
      simp only [withinOneB, Bool.or_eq_true, Bool.and_eq_true,
        decide_eq_true_eq] at hwi
      rcases hwi with h1 | h1
      · exact Or.inl h1
      · exact Or.inr h1.1
    have hrest : ∀ j, occB old rest.flatten j = true →
        withinOneB old rest j = true := by
      intro j hj
      have h2 : occB old (t :: rest).flatten (t.length + j) = true := by
        simp only [List.flatten_cons]
        exact occB_append_right hj
      have hwj := hw _ h2
      simp only [withinOneB, Bool.or_eq_true, Bool.and_eq_true,
        decide_eq_true_eq] at hwj
      rcases hwj with h1 | h1
      · omega
      · have h3 := h1.2
        have h4 : t.length + j - t.length = j := by omega
        rwa [h4] at h3
    simp only [List.map_cons, List.flatten_cons]
    rw [pyReplace_append old new hold t.length t rest.flatten le_rfl hsep,
      ih hrest]

/-! ### Facts about `splitRun` and paragraph concatenation -/

lemma splitRun_of_not_contains {old new : Str} {r : Run}
    (h : containsSub old r.text = false) : splitRun old new r = [r] := by
  unfold splitRun
  rw [if_neg (by rw [h]; exact Bool.false_ne_true)]

lemma flatten_map_text_splitRun (old new : Str) (r : Run) :
    ((splitRun old new r).map Run.text).flatten = pyReplace old new r.text := by
  by_cases h : containsSub old r.text = true
  · unfold splitRun
    rw [if_pos h]
    obtain ⟨p0, rest, hp⟩ : ∃ p0 rest, pyParts old new r.text = p0 :: rest := by
      cases hq : pyParts old new r.text with
      | nil => exact absurd hq pyParts_ne_nil
      | cons a b => exact ⟨a, b, rfl⟩
    simp only [hp, List.headD_cons, List.tail_cons, List.map_cons,
      List.flatten_cons, List.map_map, pyReplace]
    congr 1
    have he : (Run.text ∘ fun seg => ({ text := seg, style := r.style } : Run))
        = id := rfl
    rw [he, List.map_id]
  · rw [splitRun_of_not_contains (eq_false_of_ne_true h)]
    rw [pyReplace_of_none (containsSub_false_iff.mp (eq_false_of_ne_true h))]
    simp

lemma splitRun_style {old new : Str} {r r2 : Run}
    (h : r2 ∈ splitRun old new r) : r2.style = r.style := by
  unfold splitRun at h
  by_cases hc : containsSub old r.text = true
  · rw [if_pos hc] at h
    rcases List.mem_cons.mp h with h1 | h1
    · rw [h1]
    · obtain ⟨seg, _, h2⟩ := List.mem_map.mp h1
      rw [← h2]
  · rw [if_neg hc] at h
    rcases List.mem_cons.mp h with h1 | h1
    · rw [h1]
    · cases h1

lemma flatMap_splitRun_of_no_contains (old new : Str) {p : Paragraph}
    (h : ∀ r ∈ p, containsSub old r.text = false) :
    p.flatMap (splitRun old new) = p := by
  induction p with
  | nil => rfl
  | cons r rest ih =>
    simp only [List.flatMap_cons]
    rw [splitRun_of_not_contains (h r (List.mem_cons_self r rest)),
      ih (fun x hx => h x (List.mem_cons_of_mem r hx))]
    rfl

lemma paraText_flatMap_splitRun (old new : Str) (p : Paragraph) :
    paraText (p.flatMap (splitRun old new))
      = ((p.map Run.text).map (pyReplace old new)).flatten := by
  induction p with
  | nil => rfl
  | cons r rest ih =>
    simp only [List.flatMap_cons, List.map_cons, List.flatten_cons]
    unfold paraText at ih ⊢
    rw [List.map_append, List.flatten_append, flatten_map_text_splitRun, ih]

lemma replaced_in_run_false_iff {old : Str} {p : Paragraph} :
    replaced_in_run p old = false ↔ ∀ r ∈ p, containsSub old r.text = false := by
  unfold replaced_in_run
  rw [List.any_eq_false]
  constructor
  · intro h r hr
    exact eq_false_of_ne_true (h r hr)
  · intro h r hr
    rw [h r hr]
    exact Bool.false_ne_true

lemma containsSub_paraText_of_run {old : Str} {p : Paragraph} {r : Run}
    (hr : r ∈ p) (h : containsSub old r.text = true) :
    containsSub old (paraText p) = true := by
  obtain ⟨i, hi⟩ := containsSub_iff.mp h
  apply containsSub_iff.mpr
  induction p with
  | nil => cases hr
  | cons a rest ih =>
    rcases List.mem_cons.mp hr with h1 | h1
    · subst h1
      exact ⟨i, by
        unfold paraText
        simp only [List.map_cons, List.flatten_cons]
        exact occB_append_left hi⟩
    · obtain ⟨j, hj⟩ := ih h1
      refine ⟨a.text.length + j, ?_⟩
      unfold paraText at hj ⊢
      simp only [List.map_cons, List.flatten_cons]
      exact occB_append_right hj

lemma replaced_in_run_false_of_not_contains {old : Str} {p : Paragraph}
    (h : containsSub old (paraText p) = false) :
    replaced_in_run p old = false := by
  rw [replaced_in_run_false_iff]
  intro r hr
  by_cases hq : containsSub old r.text = true
  · rw [containsSub_paraText_of_run hr hq] at h
    cases h
  · exact eq_false_of_ne_true hq

lemma splitRun_texts {old new : Str} {r : Run}
    (h : containsSub old r.text = true) :
    (splitRun old new r).map Run.text = pyParts old new r.text := by
  unfold splitRun
  rw [if_pos h]
  obtain ⟨p0, rest, hp⟩ : ∃ p0 rest, pyParts old new r.text = p0 :: rest := by
    cases hq : pyParts old new r.text with
    | nil => exact absurd hq pyParts_ne_nil
    | cons a b => exact ⟨a, b, rfl⟩
  simp only [hp, List.headD_cons, List.tail_cons, List.map_cons, List.map_map]
  congr 1
  have he : (Run.text ∘ fun seg => ({ text := seg, style := r.style } : Run))
      = id := rfl
  rw [he, List.map_id]

/-! ### The claims -/

/-- C5: for every paragraph `P` and rule `(old, new)` with `old`
non-empty, if `old` does not appear in `P`'s concatenated text then
`replace` is a no-op: the paragraph's run list is unchanged (same run
count, texts and styles), and the returned value is the usual `None`. -/
theorem claim_C5 (p : Paragraph) (old new : Str) (hold : old ≠ [])
    (h : containsSub old (paraText p) = false) :
    deep_replace_text_in_paragraph p old new = (p, none) := by
  have hrir := replaced_in_run_false_of_not_contains h
  have hruns := replaced_in_run_false_iff.mp hrir
  have hfm := flatMap_splitRun_of_no_contains old new hruns
  simp [deep_replace_text_in_paragraph, hfm, hrir, h]

theorem claim_C5_witness :
    ("xyz".toList ≠ ([] : Str))
      ∧ containsSub "xyz".toList
          (paraText [⟨"hello".toList, defaultRunStyle⟩]) = false
      ∧ deep_replace_text_in_paragraph [⟨"hello".toList, defaultRunStyle⟩]
          "xyz".toList "Q".toList
          = ([⟨"hello".toList, defaultRunStyle⟩], none) :=
  ⟨by decide, by decide,
    claim_C5 [⟨"hello".toList, defaultRunStyle⟩] "xyz".toList "Q".toList
      (by decide) (by decide)⟩

/-- C2: for every paragraph `P` and rule `(old, new)` with `old`
non-empty, if no single run of `P` contains a complete occurrence of
`old` but `P`'s concatenated text does contain `old`, then after
`replace` the concatenated text equals the string-level substitution
applied to the original concatenated text and the paragraph consists of
exactly one run (the fallback deletes all runs and inserts a single
default-styled run holding the substituted text). -/
theorem claim_C2 (p : Paragraph) (old new : Str) (hold : old ≠ [])
    (hruns : ∀ r ∈ p, containsSub old r.text = false)
    (hpara : containsSub old (paraText p) = true) :
    (deep_replace_text_in_paragraph p old new).1
        = [{ text := pyReplace old new (paraText p), style := defaultRunStyle }]
      ∧ paraText (deep_replace_text_in_paragraph p old new).1
          = pyReplace old new (paraText p)
      ∧ ((deep_replace_text_in_paragraph p old new).1).length = 1 := by
  have hrir : replaced_in_run p old = false := replaced_in_run_false_iff.mpr hruns
  have hfm := flatMap_splitRun_of_no_contains old new hruns
  have hres : deep_replace_text_in_paragraph p old new
      = ([{ text := pyReplace old new (paraText p), style := defaultRunStyle }],
          none) := by
    simp [deep_replace_text_in_paragraph, hfm, hrir, hpara]
  rw [hres]
  refine ⟨rfl, ?_, rfl⟩
  simp [paraText]

theorem claim_C2_witness :
    ("ooba".toList ≠ ([] : Str))
      ∧ (∀ r ∈ ([⟨"foo".toList, defaultRunStyle⟩,
            ⟨"bar".toList, defaultRunStyle⟩] : Paragraph),
          containsSub "ooba".toList r.text = false)
      ∧ containsSub "ooba".toList
          (paraText [⟨"foo".toList, defaultRunStyle⟩,
            ⟨"bar".toList, defaultRunStyle⟩]) = true
      ∧ ((deep_replace_text_in_paragraph
            [⟨"foo".toList, defaultRunStyle⟩, ⟨"bar".toList, defaultRunStyle⟩]
            "ooba".toList "X".toList).1).length = 1 :=
  ⟨by decide, by decide, by decide,
    (claim_C2 [⟨"foo".toList, defaultRunStyle⟩, ⟨"bar".toList, defaultRunStyle⟩]
        "ooba".toList "X".toList (by decide) (by decide) (by decide)).2.2⟩

/-- C3: within one run's text, occurrences of `old` are matched
left-to-right and non-overlapping — whenever the scan finds a match at
`i` it resumes strictly after its end, at `i + old.length` — and on the
concrete run `"aaaa"` with rule `("aa", "b")` the result is `"bb"`
(two matches: the parts list is `["", "b", "", "b", ""]`), not three. -/
theorem claim_C3 :
    (∀ (old new s : Str) (i : Nat), old ≠ [] → findSub old s = some i →
        pyParts old new s
          = s.take i :: new :: pyParts old new (s.drop (i + old.length)))
      ∧ pyParts "aa".toList "b".toList "aaaa".toList
          = [[], "b".toList, [], "b".toList, []]
      ∧ paraText (deep_replace_text_in_paragraph
            [⟨"aaaa".toList, defaultRunStyle⟩] "aa".toList "b".toList).1
          = "bb".toList :=
  ⟨fun old new s i hold h => @pyParts_of_some old new s i hold h,
    by decide, by decide⟩

theorem claim_C3_witness :
    ("aa".toList ≠ ([] : Str))
      ∧ findSub "aa".toList "aaaa".toList = some 0
      ∧ pyParts "aa".toList "b".toList "aaaa".toList
          = ("aaaa".toList.take 0) :: "b".toList ::
              pyParts "aa".toList "b".toList
                ("aaaa".toList.drop (0 + "aa".toList.length)) :=
  ⟨by decide, by decide,
    claim_C3.1 "aa".toList "b".toList "aaaa".toList 0 (by decide) (by decide)⟩

/-- C4 counterexample: `deep_replace_text_in_paragraph` has no `return`
statement, so its value is `None` even when a replacement did occur
(here `"foo" → "bar"` changes the paragraph text), refuting the claim
that it returns a boolean that is true iff a replacement occurred. -/
theorem claim_C4_counterexample :
    (deep_replace_text_in_paragraph [⟨"foo".toList, defaultRunStyle⟩]
        "foo".toList "bar".toList).2 ≠ some true
      ∧ paraText (deep_replace_text_in_paragraph
            [⟨"foo".toList, defaultRunStyle⟩] "foo".toList "bar".toList).1
          ≠ paraText [⟨"foo".toList, defaultRunStyle⟩] := by
  decide

/-- C4 (amended): `replace` returns no value — its Python return value
is always `None` — and whether a within-run replacement occurred is
tracked only by the internal `replaced_in_run` flag, which is true iff
some single run's text contains `old`. -/
theorem claim_C4_amended :
    (∀ (p : Paragraph) (old new : Str),
        (deep_replace_text_in_paragraph p old new).2 = none)
      ∧ ∀ (p : Paragraph) (old : Str),
          replaced_in_run p old = true ↔ ∃ r ∈ p, containsSub old r.text = true := by
  constructor
  · intro p old new
    unfold deep_replace_text_in_paragraph
    split
    · rfl
    · rfl
  · intro p old
    unfold replaced_in_run
    exact List.any_eq_true

/-- C6 counterexample: for run `"xy"` and rule `("x", "")` the code
materializes the empty replacement segment as a new empty-text run — the
paragraph ends with three runs (`""`, `""`, `"y"`), not the two runs the
claim predicts when the removed span contributes no run. -/
theorem claim_C6_counterexample :
    (deep_replace_text_in_paragraph [⟨"xy".toList, defaultRunStyle⟩]
          "x".toList []).1
        = [⟨[], defaultRunStyle⟩, ⟨[], defaultRunStyle⟩,
            ⟨"y".toList, defaultRunStyle⟩]
      ∧ ((deep_replace_text_in_paragraph [⟨"xy".toList, defaultRunStyle⟩]
            "x".toList []).1).length ≠ 2 := by
  decide

/-- C6 (amended): for every rule with empty `new` matched wholly within
a run, every segment after the first — each empty replacement segment
included — is materialized as a new run (with empty text, copying the
original run's style), while the first segment, even if empty, remains
as the original run's text: the resulting run texts are exactly the
parts list. -/
theorem claim_C6_amended (old : Str) (r : Run) (hold : old ≠ [])
    (h : containsSub old r.text = true) :
    (splitRun old [] r).map Run.text = pyParts old [] r.text
      ∧ (splitRun old [] r).head?
          = some { r with text := (pyParts old [] r.text).headD [] }
      ∧ ∀ r2 ∈ splitRun old [] r, r2.style = r.style := by
  refine ⟨splitRun_texts h, ?_, fun r2 h2 => splitRun_style h2⟩
  unfold splitRun
  rw [if_pos h]
  rfl

theorem claim_C6_witness :
    ("x".toList ≠ ([] : Str))
      ∧ containsSub "x".toList "xy".toList = true
      ∧ (splitRun "x".toList [] ⟨"xy".toList, defaultRunStyle⟩).map Run.text
          = pyParts "x".toList [] "xy".toList :=
  ⟨by decide, by decide,
    (claim_C6_amended "x".toList ⟨"xy".toList, defaultRunStyle⟩
        (by decide) (by decide)).1⟩

/-- C7: for every rule whose `old` text is non-empty the per-run
occurrence-scanning loop terminates: the fuel `s.length` is sufficient
(any larger fuel computes the same parts list), because after a match at
`i` the scan resumes strictly after its end, so the remaining suffix
strictly shrinks. -/
theorem claim_C7 (old new s : Str) (fuel : Nat) (hold : old ≠ [])
    (hfuel : s.length ≤ fuel) :
    pyPartsF old new fuel s = pyParts old new s
      ∧ ∀ i, findSub old s = some i →
          (s.drop (i + old.length)).length < s.length := by
  refine ⟨pyPartsF_congr hold fuel s.length s hfuel le_rfl, ?_⟩
  intro i h
  have hb := findSub_bound hold h
  have hpos : 0 < old.length := List.length_pos.mpr hold
  have hl : (s.drop (i + old.length)).length = s.length - (i + old.length) :=
    List.length_drop ..
  omega

theorem claim_C7_witness :
    pyPartsF "ab".toList "c".toList 10 "zababy".toList
        = pyParts "ab".toList "c".toList "zababy".toList
      ∧ ("zababy".toList.drop (1 + "ab".toList.length)).length
          < "zababy".toList.length :=
  ⟨(claim_C7 "ab".toList "c".toList "zababy".toList 10
      (by decide) (by decide)).1,
    (claim_C7 "ab".toList "c".toList "zababy".toList 10
      (by decide) (by decide)).2 1 (by decide)⟩

/-- C1 counterexample: in the paragraph with runs `"a"` and `"aa"` the
rule `("aa", "b")` has `old` wholly within the second run's text, yet
the result concatenates to `"ab"` while the string-level substitution on
the original concatenation `"aaa"` yields `"ba"` (the code never matches
the occurrence straddling the two runs), refuting the claim as stated. -/
theorem claim_C1_counterexample :
    (∃ r ∈ ([⟨"a".toList, defaultRunStyle⟩,
          ⟨"aa".toList, defaultRunStyle⟩] : Paragraph),
        containsSub "aa".toList r.text = true)
      ∧ paraText (deep_replace_text_in_paragraph
            [⟨"a".toList, defaultRunStyle⟩, ⟨"aa".toList, defaultRunStyle⟩]
            "aa".toList "b".toList).1
          ≠ pyReplace "aa".toList "b".toList
              (paraText [⟨"a".toList, defaultRunStyle⟩,
                ⟨"aa".toList, defaultRunStyle⟩]) := by
  decide

/-- C1 (amended): for every paragraph `P` and rule `(old, new)` with
`old` non-empty, if `old` appears wholly within one run's text and
moreover every occurrence of `old` in `P`'s concatenated text lies
wholly within a single run (no occurrence straddles a run boundary),
then after `replace` the concatenated run text equals the string-level
substitution applied to `P`'s original concatenated text, the run list
is the per-run split, and every resulting run's style matches the style
of the run it was split from. -/
theorem claim_C1_amended (p : Paragraph) (old new : Str) (hold : old ≠ [])
    (hwithin : ∃ r ∈ p, containsSub old r.text = true)
    (hnostraddle : ∀ i, i < (paraText p).length →
        occB old (paraText p) i = true →
        withinOneB old (p.map Run.text) i = true) :
    paraText (deep_replace_text_in_paragraph p old new).1
        = pyReplace old new (paraText p)
      ∧ (deep_replace_text_in_paragraph p old new).1
          = p.flatMap (splitRun old new)
      ∧ ∀ r ∈ p, ∀ r2 ∈ splitRun old new r, r2.style = r.style := by
  have hrir : replaced_in_run p old = true := by
    unfold replaced_in_run
    rw [List.any_eq_true]
    exact hwithin
  have hres : deep_replace_text_in_paragraph p old new
      = (p.flatMap (splitRun old new), none) := by
    simp [deep_replace_text_in_paragraph, hrir]
  rw [hres]
  refine ⟨?_, rfl, fun r _ r2 h2 => splitRun_style h2⟩
  rw [paraText_flatMap_splitRun]
  apply flatten_map_pyReplace old new hold
  intro i hi
  have hb := occB_bound hold hi
  have hpos : 0 < old.length := List.length_pos.mpr hold
  have hlt : i < (paraText p).length := by
    unfold paraText
    omega
  exact hnostraddle i hlt hi

theorem claim_C1_witness :
    paraText (deep_replace_text_in_paragraph
        [⟨"ab".toList, defaultRunStyle⟩,
          ⟨"cd".toList, { defaultRunStyle with bold := some true }⟩]
        "cd".toList "XY".toList).1
      = pyReplace "cd".toList "XY".toList
          (paraText [⟨"ab".toList, defaultRunStyle⟩,
            ⟨"cd".toList, { defaultRunStyle with bold := some true }⟩]) :=
  (claim_C1_amended
      [⟨"ab".toList, defaultRunStyle⟩,
        ⟨"cd".toList, { defaultRunStyle with bold := some true }⟩]
      "cd".toList "XY".toList (by decide) (by decide) (by decide)).1

/-! ### Font normalization -/

lemma map_map_idem {α : Type} (f : α → α) (hf : ∀ a, f (f a) = f a)
    (l : List α) : (l.map f).map f = l.map f := by
  rw [List.map_map]
  apply List.map_congr_left
  intro a _
  exact hf a

/-- C8: the font-normalization pass sets every run of every body
paragraph and of every paragraph of every table cell to Calibri 12pt and
every run of every section-footer paragraph to Calibri 8pt, and it is
idempotent: applying it a second time yields an identical document. -/
theorem claim_C8 (d : Document) :
    (∀ p ∈ (change_font_in_docx d).body, ∀ r ∈ p,
        r.style.fontName = some calibri ∧ r.style.fontSize = some 12)
      ∧ (∀ table ∈ (change_font_in_docx d).tables, ∀ row ∈ table,
          ∀ cell ∈ row, ∀ p ∈ cell, ∀ r ∈ p,
            r.style.fontName = some calibri ∧ r.style.fontSize = some 12)
      ∧ (∀ f ∈ (change_font_in_docx d).footers, ∀ p ∈ f, ∀ r ∈ p,
          r.style.fontName = some calibri ∧ r.style.fontSize = some 8)
      ∧ change_font_in_docx (change_font_in_docx d) = change_font_in_docx d := by
  refine ⟨?_, ?_, ?_, ?_⟩
  · intro p hp r hr
    simp only [change_font_in_docx, List.mem_map] at hp
    obtain ⟨p0, _, rfl⟩ := hp
    obtain ⟨r0, _, rfl⟩ := List.mem_map.mp hr
    exact ⟨rfl, rfl⟩
  · intro table ht row hrow cell hcell p hp r hr
    simp only [change_font_in_docx, List.mem_map] at ht
    obtain ⟨t0, _, rfl⟩ := ht
    obtain ⟨row0, _, rfl⟩ := List.mem_map.mp hrow
    obtain ⟨cell0, _, rfl⟩ := List.mem_map.mp hcell
    obtain ⟨p0, _, rfl⟩ := List.mem_map.mp hp
    obtain ⟨r0, _, rfl⟩ := List.mem_map.mp hr
    exact ⟨rfl, rfl⟩
  · intro f hf p hp r hr
    simp only [change_font_in_docx, List.mem_map] at hf
    obtain ⟨f0, _, rfl⟩ := hf
    obtain ⟨p0, _, rfl⟩ := List.mem_map.mp hp
    obtain ⟨r0, _, rfl⟩ := List.mem_map.mp hr
    exact ⟨rfl, rfl⟩
  · have h12 : ∀ r, setRunFont calibri 12 (setRunFont calibri 12 r)
        = setRunFont calibri 12 r := fun r => rfl
    have h8 : ∀ r, setRunFont calibri 8 (setRunFont calibri 8 r)
        = setRunFont calibri 8 r := fun r => rfl
    simp only [change_font_in_docx]
    congr 1
    · exact map_map_idem (fun p : Paragraph => p.map (setRunFont calibri 12))
        (fun p => map_map_idem (setRunFont calibri 12) h12 p) d.body
    · exact map_map_idem
        (fun table : List (List (List Paragraph)) => table.map fun row =>
          row.map fun cell => cell.map fun p => p.map (setRunFont calibri 12))
        (fun table => map_map_idem
          (fun row : List (List Paragraph) => row.map fun cell =>
            cell.map fun p => p.map (setRunFont calibri 12))
          (fun row => map_map_idem
            (fun cell : List Paragraph => cell.map fun p =>
              p.map (setRunFont calibri 12))
            (fun cell => map_map_idem
              (fun p : Paragraph => p.map (setRunFont calibri 12))
              (fun p => map_map_idem (setRunFont calibri 12) h12 p) cell)
            row)
          table)
        d.tables
    · exact map_map_idem
        (fun f : List Paragraph => f.map fun p => p.map (setRunFont calibri 8))
        (fun f => map_map_idem
          (fun p : Paragraph => p.map (setRunFont calibri 8))
          (fun p => map_map_idem (setRunFont calibri 8) h8 p) f) d.footers

theorem claim_C8_witness :
    ((setRunFont calibri 12 timesBodyRun).style.fontName = some calibri
        ∧ (setRunFont calibri 12 timesBodyRun).style.fontSize = some 12)
      ∧ change_font_in_docx (change_font_in_docx fontScenarioDoc)
          = change_font_in_docx fontScenarioDoc :=
  ⟨(claim_C8 fontScenarioDoc).1 [setRunFont calibri 12 timesBodyRun]
      (by decide) (setRunFont calibri 12 timesBodyRun) (by decide),
    (claim_C8 fontScenarioDoc).2.2.2⟩


/-! ### Filename derivation and batch driver -/

/-- C9: the derived output filename equals the original filename with
each rule's `(old, new)` substitution applied sequentially in list order
(the guarded `process_file_name` of the GUI variant computes the same
result as the unguarded derivation of `process_word_file`, rule by rule,
left to right), and in particular `[("Draft", "Final")]` applied to
`"Draft - Jan.docx"` yields `"Final - Jan.docx"`. -/
theorem claim_C9 :
    (∀ (name : Str) (rules : List (Str × Str)),
        process_file_name name rules = new_filename name rules)
      ∧ (∀ (name : Str) (rule : Str × Str) (rules : List (Str × Str)),
          new_filename name (rule :: rules)
            = new_filename (pyReplace rule.1 rule.2 name) rules)
      ∧ (∀ (p : Paragraph) (rule : Str × Str) (rules : List (Str × Str)),
          apply_rules_to_paragraph p (rule :: rules)
            = apply_rules_to_paragraph
                (if containsSub rule.1 (paraText p) then
                  (deep_replace_text_in_paragraph p rule.1 rule.2).1
                else p) rules)
      ∧ new_filename "Draft - Jan.docx".toList
          [("Draft".toList, "Final".toList)] = "Final - Jan.docx".toList := by
  refine ⟨?_, fun name rule rules => rfl, fun p rule rules => rfl, by decide⟩
  intro name rules
  induction rules generalizing name with
  | nil => rfl
  | cons rule rest ih =>
    show process_file_name
        (if containsSub rule.1 name then pyReplace rule.1 rule.2 name else name)
        rest
      = new_filename (pyReplace rule.1 rule.2 name) rest
    by_cases hc : containsSub rule.1 name = true
    · rw [if_pos hc]
      exact ih (pyReplace rule.1 rule.2 name)
    · rw [if_neg hc,
        pyReplace_of_none (containsSub_false_iff.mp (eq_false_of_ne_true hc))]
      exact ih name

lemma directory_fold {F E : Type} (files : List (F × Except E Unit)) :
    ∀ (c : Nat) (fs : List (F × E)),
    files.foldl directory_step (c, fs)
      = (c + files.length, fs ++ files.filterMap failure_record) := by
  induction files with
  | nil =>
    intro c fs
    simp
  | cons f rest ih =>
    obtain ⟨x, o⟩ := f
    intro c fs
    cases o with
    | ok u =>
      show rest.foldl directory_step (c + 1, fs) = _
      rw [ih (c + 1) fs]
      have h1 : List.filterMap failure_record ((x, Except.ok u) :: rest)
          = List.filterMap failure_record rest := by
        rw [List.filterMap_cons]
        rfl
      rw [h1, List.length_cons]
      have h2 : c + 1 + rest.length = c + (rest.length + 1) := by omega
      rw [h2]
    | error e =>
      show rest.foldl directory_step (c + 1, fs ++ [(x, e)]) = _
      rw [ih (c + 1) (fs ++ [(x, e)])]
      have h1 : List.filterMap failure_record ((x, Except.error e) :: rest)
          = (x, e) :: List.filterMap failure_record rest := by
        rw [List.filterMap_cons]
        rfl
      rw [h1, List.length_cons, List.append_assoc]
      have h2 : c + 1 + rest.length = c + (rest.length + 1) := by omega
      rw [h2]
      rfl

/-- C10: the batch driver visits every file; an error in one file's
pipeline is caught at the per-file boundary and recorded as that file's
failure record, in order, and the remaining files are still processed —
a failure never aborts the batch (the report over `pre ++ post` is the
concatenation of the two parts' failure records) — and the final report
counts processed versus total files (every worker returns normally
because `process_word_file` swallows its own exceptions, so
`files_processed` counts all files). -/
theorem claim_C10 {F E : Type} (files : List (F × Except E Unit)) :
    (process_directory_model files).total_files = files.length
      ∧ (process_directory_model files).files_processed = files.length
      ∧ (process_directory_model files).failures
          = files.filterMap failure_record
      ∧ (∀ (x : F) (e : E), (x, Except.error e) ∈ files →
          (x, e) ∈ (process_directory_model files).failures)
      ∧ ∀ pre post, files = pre ++ post →
          (process_directory_model files).failures
            = (process_directory_model pre).failures
                ++ (process_directory_model post).failures := by
  have hfold : ∀ (fl : List (F × Except E Unit)),
      fl.foldl directory_step (0, ([] : List (F × E)))
        = (fl.length, fl.filterMap failure_record) := by
    intro fl
    rw [directory_fold fl 0 []]
    simp
  refine ⟨rfl, ?_, ?_, ?_, ?_⟩
  · show (files.foldl directory_step (0, [])).1 = files.length
    rw [hfold files]
  · show (files.foldl directory_step (0, [])).2 = _
    rw [hfold files]
  · intro x e hmem
    show (x, e) ∈ (files.foldl directory_step (0, [])).2
    rw [hfold files]
    exact List.mem_filterMap.mpr ⟨(x, Except.error e), hmem, rfl⟩
  · intro pre post hsplit
    show (files.foldl directory_step (0, [])).2
      = (pre.foldl directory_step (0, [])).2
          ++ (post.foldl directory_step (0, [])).2
    rw [hfold files, hfold pre, hfold post, hsplit, List.filterMap_append]

theorem claim_C10_witness :
    (process_directory_model
        [((0 : Nat), Except.ok ()), (1, Except.error (7 : Nat)),
          (2, Except.ok ())]).total_files = 3
      ∧ (process_directory_model
          [((0 : Nat), Except.ok ()), (1, Except.error (7 : Nat)),
            (2, Except.ok ())]).files_processed = 3
      ∧ (process_directory_model
          [((0 : Nat), Except.ok ()), (1, Except.error (7 : Nat)),
            (2, Except.ok ())]).failures = [(1, 7)]
      ∧ (1, 7) ∈ (process_directory_model
          [((0 : Nat), Except.ok ()), (1, Except.error (7 : Nat)),
            (2, Except.ok ())]).failures
      ∧ (process_directory_model
          [((0 : Nat), Except.ok ()), (1, Except.error (7 : Nat)),
            (2, Except.ok ())]).failures
          = (process_directory_model [((0 : Nat), Except.ok ())]).failures
              ++ (process_directory_model
                  [((1 : Nat), Except.error (7 : Nat)),
                    (2, Except.ok ())]).failures :=
  ⟨(claim_C10 _).1,
    (claim_C10 _).2.1,
    ((claim_C10 _).2.2.1).trans (by decide),
    (claim_C10 _).2.2.2.1 1 7
      (List.mem_cons_of_mem _ (List.mem_cons_self _ _)),
    (claim_C10 _).2.2.2.2 [((0 : Nat), Except.ok ())]
      [((1 : Nat), Except.error (7 : Nat)), (2, Except.ok ())] rfl⟩


end DocFlow
